import Mathlib

/-!
# Verification of the LHRR image re-ranking pipeline (`image_analysis.py`)

Shallow embedding of the iterative re-ranking core: pairwise similarity,
rank normalization, hypergraph construction, edge associations and weights,
hyperedge similarities, cartesian-product membership aggregation, affinity
fusion, the refinement loop, retrieval and accuracy.

Numeric values are modelled as elements of a linear ordered field (`ℝ` where
`sqrt`/`logb` are involved, generic `α` elsewhere so that concrete witnesses
can be evaluated over `ℚ`).  NumPy matrices are modelled as functions
`Nat → Nat → α` (entries outside the allocated `N × N` block are `0`, as in
`np.zeros`); Python lists of `(id, score)` tuples are `List (Nat × α)`.
Python's `sorted`, a stable sort, is modelled by `List.insertionSort`, which
inserts each element before the strictly-greater tail of the already sorted
suffix and therefore preserves the original order of equal keys.
-/

namespace ImageAnalysis

/-- A similarity row: the Python `list(enumerate(scores))` shape, a list of
`(neighborId, score)` pairs. -/
abbrev SimRow (α : Type) := List (Nat × α)

/-- Euclidean distance `np.linalg.norm(a - b)` between two feature vectors. -/
noncomputable def euclideanDist (a b : List ℝ) : ℝ :=
  Real.sqrt (((a.zip b).map fun p => (p.1 - p.2) ^ 2).sum)

/-- `calculate_similarity`: for every item `i`, the distances from every item
`j` to item `i`, zero distances replaced by `0.00001`, inverted, and paired
with their index by `enumerate`. -/
noncomputable def calculate_similarity (features : List (List ℝ)) :
    List (SimRow ℝ) :=
  features.map fun fi =>
    (features.map fun fj =>
      1 / (if euclideanDist fj fi = 0 then 1 / 100000 else euclideanDist fj fi)).enum

variable {α : Type} [LinearOrderedField α]

/-- `similarity_lists[i][j][1]`: the score component read by position. -/
def scoreAt (s : List (SimRow α)) (i j : Nat) : α :=
  ((s.getD i []).getD j (0, 0)).2

/-- The rank computed inside `rank_normalization`:
`2 * L - (similarity_lists[i][j][1] + similarity_lists[j][i][1])` with
`L = len(similarity_lists[0])`. -/
def rankValue (s : List (SimRow α)) (i j : Nat) : α :=
  2 * ((s.getD 0 []).length : α) - (scoreAt s i j + scoreAt s j i)

/-- The comparison used by `sorted(ranks, key=lambda x: x[1])`. -/
def rankLe (a b : Nat × α) : Prop := a.2 ≤ b.2

instance : DecidableRel (rankLe (α := α)) :=
  fun a b => inferInstanceAs (Decidable (a.2 ≤ b.2))

/-- The `ranks` list built inside `rank_normalization` for item `i`: all
pairs `(j, rank(i,j))` for `j` over the positions of row `i`. -/
def ranks (s : List (SimRow α)) (i : Nat) : SimRow α :=
  (List.range (s.getD i []).length).map fun j => (j, rankValue s i j)

/-- `rank_normalization`: for every item `i`, the `ranks` list sorted
(stably) by rank. -/
def rank_normalization (s : List (SimRow α)) : List (SimRow α) :=
  (List.range s.length).map fun i => List.insertionSort rankLe (ranks s i)

/-- `get_hypergraph_construction`: hyperedge `i` collects the ids
`similarity_scores[i][j][0]` for `j in range(k)` (source default `k = 5`). -/
def get_hypergraph_construction (scores : List (SimRow α)) (k : Nat) :
    List (List Nat) :=
  scores.map fun row => (List.range k).map fun j => (row.getD j (0, 0)).1

/-- `create_edge_associations` (source default `k = 5`): entry `(i, j)` is
`1 - math.log(e.index(j) + 1, k + 1)` when `j` is a member of hyperedge `i`
and `0` otherwise. -/
noncomputable def create_edge_associations (hyperedges : List (List Nat))
    (k : Nat) : Nat → Nat → ℝ := fun i j =>
  let e := hyperedges.getD i []
  if j ∈ e then 1 - Real.logb (k + 1) ((e.indexOf j + 1 : ℕ) : ℝ) else 0

/-- `create_edge_weights`: the weight of hyperedge `i` is the sum of its own
association entries `edge_associations[i][h]` over its members `h`. -/
def create_edge_weights (hyperedges : List (List Nat))
    (A : Nat → Nat → α) : List α :=
  hyperedges.enum.map fun ie => (ie.2.map fun h => A ie.1 h).sum

/-- `get_hyperedges_similarities`: the Hadamard product of
`A @ A.T` and `A.T @ A` for the `N × N` incidence matrix `A`. -/
def get_hyperedges_similarities (N : Nat) (A : Nat → Nat → α) :
    Nat → Nat → α := fun i j =>
  (((List.range N).map fun l => A i l * A j l).sum) *
  (((List.range N).map fun l => A l i * A l j).sum)

/-- `np.transpose(np.meshgrid(e, e)).reshape(-1, 2)`: all ordered pairs of
`e × e`, first component outermost. -/
def meshPairs (e : List Nat) : List (Nat × Nat) :=
  e.flatMap fun v1 => e.map fun v2 => (v1, v2)

/-- One `matrix_c[v1][v2] += d` in-place update. -/
def bump (c : Nat → Nat → α) (v1 v2 : Nat) (d : α) : Nat → Nat → α :=
  fun a b => if a = v1 ∧ b = v2 then c a b + d else c a b

/-- `get_cartesian_product_of_hyperedge_elements`: starting from `np.zeros`,
every hyperedge `i` adds, for each ordered pair `(v1, v2)` of its members,
the membership degree
`edge_weights[i] * edge_associations[i][v1] * edge_associations[i][v2]`
to `matrix_c[v1][v2]`. -/
def get_cartesian_product_of_hyperedge_elements (edge_weights : List α)
    (A : Nat → Nat → α) (hyperedges : List (List Nat)) : Nat → Nat → α :=
  hyperedges.enum.foldl
    (fun c ie =>
      (meshPairs ie.2).foldl
        (fun c p =>
          bump c p.1 p.2 (edge_weights.getD ie.1 0 * A ie.1 p.1 * A ie.1 p.2))
        c)
    (fun _ _ => 0)

/-- `get_hypergrapgh_based_simalarity` (name as in the source): the affinity
matrix is the elementwise product of `matrix_c` and the hyperedge
similarities. -/
def get_hypergrapgh_based_simalarity (c S : Nat → Nat → α) :
    Nat → Nat → α := fun i j => c i j * S i j

/-- `affinity_matrix.tolist()` for the `N × N` affinity matrix. -/
def toLists (N : Nat) (F : Nat → Nat → α) : List (List α) :=
  (List.range N).map fun i => (List.range N).map fun j => F i j

/-- The `__main__` re-expression loop: every row value `v` at column `j`
becomes the pair `(j, v)` — exactly `List.enum` on each row. -/
def reexpress (m : List (List α)) : List (SimRow α) :=
  m.map List.enum

/-- One iteration of the `__main__` refinement loop (source uses the default
`k = 5` throughout): rank normalization, hypergraph construction, edge
associations, edge weights, hyperedge similarities, membership matrix,
affinity matrix, and re-expression as the next round's similarity rows. -/
noncomputable def lhrr_round (k : Nat) (s : List (SimRow ℝ)) :
    List (SimRow ℝ) :=
  let normalized := rank_normalization s
  let hyperedges := get_hypergraph_construction normalized k
  let A := create_edge_associations hyperedges k
  let w := create_edge_weights hyperedges A
  let S := get_hyperedges_similarities hyperedges.length A
  let c := get_cartesian_product_of_hyperedge_elements w A hyperedges
  let F := get_hypergrapgh_based_simalarity c S
  reexpress (toLists hyperedges.length F)

/-- The whole refinement loop: `number_of_iterations` rounds (source default
`9`), each feeding its affinity output back as similarity input. -/
noncomputable def lhrr_run (k iterations : Nat) (s : List (SimRow ℝ)) :
    List (SimRow ℝ) :=
  (lhrr_round k)^[iterations] s

/-- The retrieval filter: the query row's entries with score `!= 0`, in row
order. -/
def retrieve_filter (s : List (SimRow α)) (q : Nat) : SimRow α :=
  (s.getD q []).filter fun p => decide (p.2 ≠ 0)

/-- The comparison realising `sorted(..., key=lambda x: x[1], reverse=True)`. -/
def scoreGe (a b : Nat × α) : Prop := b.2 ≤ a.2

instance : DecidableRel (scoreGe (α := α)) :=
  fun a b => inferInstanceAs (Decidable (b.2 ≤ a.2))

/-- `retrieved_images` after sorting: the filtered query row sorted (stably)
by descending score. -/
def retrieved_images (s : List (SimRow α)) (q : Nat) : SimRow α :=
  List.insertionSort scoreGe (retrieve_filter s q)

/-- `retrieved_images[:5]`: the final top-5 shortlist. -/
def top_retrieved (s : List (SimRow α)) (q : Nat) : SimRow α :=
  (retrieved_images s q).take 5

/-- `calculate_accuracy`: the fraction of retrieved items whose label equals
the query label, as a percentage. -/
def calculate_accuracy {L : Type} [DecidableEq L] (retrieved : SimRow α)
    (labels : Nat → L) (queryLabel : L) : α :=
  ((retrieved.countP fun p => decide (labels p.1 = queryLabel) : ℕ) : α) /
    (retrieved.length : α) * 100

instance : IsTotal (Nat × α) (rankLe (α := α)) :=
  ⟨fun a b => le_total a.2 b.2⟩

instance : IsTrans (Nat × α) (rankLe (α := α)) :=
  ⟨fun _ _ _ h1 h2 => le_trans h1 h2⟩

instance : IsTotal (Nat × α) (scoreGe (α := α)) :=
  ⟨fun a b => le_total b.2 a.2⟩

instance : IsTrans (Nat × α) (scoreGe (α := α)) :=
  ⟨fun _ _ _ h1 h2 => le_trans h2 h1⟩

/-! ## Helper lemmas -/

theorem length_rank_normalization (s : List (SimRow α)) :
    (rank_normalization s).length = s.length := by
  simp [rank_normalization]

theorem rank_normalization_getD (s : List (SimRow α)) (i : Nat)
    (hi : i < s.length) :
    (rank_normalization s).getD i [] = List.insertionSort rankLe (ranks s i) := by
  rw [rank_normalization, List.getD_eq_getElem _ _ (by simpa using hi)]
  simp

theorem rank_normalization_row_perm (s : List (SimRow α)) (i : Nat)
    (hi : i < s.length) :
    ((rank_normalization s).getD i []).Perm (ranks s i) := by
  rw [rank_normalization_getD s i hi]
  exact List.perm_insertionSort _ _

theorem rank_normalization_row_sorted (s : List (SimRow α)) (i : Nat)
    (hi : i < s.length) :
    List.Sorted rankLe ((rank_normalization s).getD i []) := by
  rw [rank_normalization_getD s i hi]
  exact List.sorted_insertionSort _ _

theorem ranks_length (s : List (SimRow α)) (i : Nat) :
    (ranks s i).length = (s.getD i []).length := by
  simp [ranks]

theorem ranks_pairwise_fst (s : List (SimRow α)) (i : Nat) :
    List.Pairwise (fun a b : Nat × α => a.1 < b.1) (ranks s i) := by
  unfold ranks
  rw [List.pairwise_map]
  simpa using List.pairwise_lt_range _

theorem mem_ranks_shape (s : List (SimRow α)) (i : Nat) {p : Nat × α}
    (hp : p ∈ ranks s i) : p.2 = rankValue s i p.1 := by
  unfold ranks at hp
  rcases List.mem_map.mp hp with ⟨j, _, rfl⟩
  rfl

/-- Inserting an element whose position index is below every position index
of a lex-sorted list keeps the list lex-sorted: the key step showing that a
stable sort by rank breaks ties by original position. -/
theorem pairwise_lex_orderedInsert (x : Nat × α) (l : List (Nat × α))
    (hl : List.Pairwise
      (fun a b : Nat × α => a.2 < b.2 ∨ (a.2 = b.2 ∧ a.1 < b.1)) l)
    (hx : ∀ y ∈ l, x.1 < y.1) :
    List.Pairwise (fun a b : Nat × α => a.2 < b.2 ∨ (a.2 = b.2 ∧ a.1 < b.1))
      (List.orderedInsert rankLe x l) := by
  induction l with
  | nil => simp
  | cons y t ih =>
    simp only [List.orderedInsert]
    by_cases h : rankLe x y
    · rw [if_pos h]
      have h' : x.2 ≤ y.2 := h
      constructor
      · intro z hz
        rcases List.mem_cons.mp hz with rfl | hzt
        · rcases lt_or_eq_of_le h' with h2 | h2
          · exact Or.inl h2
          · exact Or.inr ⟨h2, hx z (by simp)⟩
        · have hyz := (List.pairwise_cons.mp hl).1 z hzt
          rcases hyz with h2 | h2
          · rcases lt_or_eq_of_le h' with h3 | h3
            · exact Or.inl (lt_trans h3 h2)
            · exact Or.inl (h3 ▸ h2)
          · rcases lt_or_eq_of_le h' with h3 | h3
            · exact Or.inl (h2.1 ▸ h3)
            · exact Or.inr ⟨h3.trans h2.1, hx z (List.mem_cons_of_mem _ hzt)⟩
      · exact hl
    · rw [if_neg h]
      have h' : y.2 < x.2 := lt_of_not_le h
      constructor
      · intro z hz
        rcases (List.mem_orderedInsert rankLe).mp hz with rfl | hzt
        · exact Or.inl h'
        · exact (List.pairwise_cons.mp hl).1 z hzt
      · exact ih (List.pairwise_cons.mp hl).2
          (fun y hy => hx y (List.mem_cons_of_mem _ hy))

/-- A stable sort by rank over a list whose position indices strictly
increase yields a list sorted by rank with ties in increasing position
order. -/
theorem pairwise_lex_insertionSort (l : List (Nat × α))
    (hl : List.Pairwise (fun a b : Nat × α => a.1 < b.1) l) :
    List.Pairwise (fun a b : Nat × α => a.2 < b.2 ∨ (a.2 = b.2 ∧ a.1 < b.1))
      (List.insertionSort rankLe l) := by
  induction l with
  | nil => simp
  | cons x t ih =>
    simp only [List.insertionSort]
    apply pairwise_lex_orderedInsert
    · exact ih (List.pairwise_cons.mp hl).2
    · intro y hy
      exact (List.pairwise_cons.mp hl).1 y
        ((List.perm_insertionSort rankLe t).mem_iff.mp hy)

/-- The re-expressed affinity rows hold `(j, F i j)` at row `i`, position
`j`: the `position == neighborId` alignment is restored by the re-expression
loop. -/
theorem reexpress_toLists_getD (N : Nat) (F : Nat → Nat → α) (i j : Nat)
    (hi : i < N) (hj : j < N) :
    ((reexpress (toLists N F)).getD i []).getD j (0, 0) = (j, F i j) := by
  have h1 : i < (reexpress (toLists N F)).length := by
    simp [reexpress, toLists, hi]
  have hrow : (reexpress (toLists N F)).getD i []
      = ((List.range N).map fun l => F i l).enum := by
    rw [List.getD_eq_getElem _ _ h1]
    simp [reexpress, toLists, hi]
  have h2 : j < (((List.range N).map fun l => F i l).enum).length := by
    simp [hj]
  rw [hrow, List.getD_eq_getElem _ _ h2]
  simp [List.getElem_enum, hj]

/-- Folding `bump` updates over a list of pairs adds, at each cell, exactly
the contributions addressed to that cell. -/
theorem foldl_bump_inner (ps : List (Nat × Nat)) (g : Nat → Nat → α)
    (c0 : Nat → Nat → α) (a b : Nat) :
    (ps.foldl (fun c p => bump c p.1 p.2 (g p.1 p.2)) c0) a b
      = c0 a b + (ps.map fun p => if p.1 = a ∧ p.2 = b then g p.1 p.2 else 0).sum := by
  induction ps generalizing c0 with
  | nil => simp
  | cons p ps ih =>
    rw [List.foldl_cons, ih, List.map_cons, List.sum_cons]
    unfold bump
    by_cases h : p.1 = a ∧ p.2 = b
    · rw [if_pos ⟨h.1.symm, h.2.symm⟩, if_pos h]
      ring
    · rw [if_neg, if_neg h]
      · ring
      · intro hc
        exact h ⟨hc.1.symm, hc.2.symm⟩

/-- The nested fold of `get_cartesian_product_of_hyperedge_elements`
evaluated at one cell: the initial value plus the sum, over hyperedges and
their member pairs, of the degrees addressed to that cell. -/
theorem foldl_bump_outer (l : List (Nat × List Nat)) (g : Nat → Nat → Nat → α)
    (c0 : Nat → Nat → α) (a b : Nat) :
    (l.foldl
        (fun c ie =>
          (meshPairs ie.2).foldl
            (fun c p => bump c p.1 p.2 (g ie.1 p.1 p.2)) c)
        c0) a b
      = c0 a b
        + (l.map fun ie =>
            ((meshPairs ie.2).map fun p =>
              if p.1 = a ∧ p.2 = b then g ie.1 p.1 p.2 else 0).sum).sum := by
  induction l generalizing c0 with
  | nil => simp
  | cons ie l ih =>
    rw [List.foldl_cons, ih, List.map_cons, List.sum_cons,
      foldl_bump_inner (meshPairs ie.2) (g ie.1) c0 a b]
    ring

theorem row_if_sum (e2 : List Nat) (v1 a b : Nat) (g : Nat → Nat → α) :
    ((e2.map fun v2 => if v1 = a ∧ v2 = b then g v1 v2 else 0)).sum
      = if v1 = a then (e2.count b : α) * g a b else 0 := by
  by_cases hv1 : v1 = a
  · subst hv1
    rw [if_pos rfl]
    induction e2 with
    | nil => simp
    | cons v2 t ih =>
      rw [List.map_cons, List.sum_cons, ih, List.count_cons]
      by_cases hv2 : v2 = b
      · subst hv2
        rw [if_pos ⟨rfl, rfl⟩, if_pos (show (v2 == v2) = true by simp)]
        push_cast
        ring
      · rw [if_neg (fun hc => hv2 hc.2),
          if_neg (show ¬((v2 == b) = true) by simpa using hv2)]
        push_cast
        ring
  · rw [if_neg hv1]
    have hz : (e2.map fun v2 => if v1 = a ∧ v2 = b then g v1 v2 else 0)
        = e2.map fun _ => (0 : α) :=
      List.map_congr_left fun x _ => if_neg (fun hc => hv1 hc.1)
    rw [hz]
    simp

theorem pairs_if_sum2 (e1 e2 : List Nat) (a b : Nat) (g : Nat → Nat → α) :
    (((e1.flatMap fun v1 => e2.map fun v2 => (v1, v2)).map
        fun p => if p.1 = a ∧ p.2 = b then g p.1 p.2 else 0).sum)
      = (e1.count a : α) * ((e2.count b : α) * g a b) := by
  induction e1 with
  | nil => simp
  | cons v1 t ih =>
    rw [List.flatMap_cons, List.map_append, List.sum_append, ih,
      List.count_cons]
    have hinner : ((e2.map fun v2 => (v1, v2)).map
          fun p => if p.1 = a ∧ p.2 = b then g p.1 p.2 else 0).sum
        = if v1 = a then (e2.count b : α) * g a b else 0 := by
      rw [List.map_map]
      exact row_if_sum e2 v1 a b g
    rw [hinner]
    by_cases hv : v1 = a
    · subst hv
      rw [if_pos rfl, if_pos (show (v1 == v1) = true by simp)]
      push_cast
      ring
    · rw [if_neg hv, if_neg (show ¬((v1 == a) = true) by simpa using hv)]
      push_cast
      ring

/-- The per-hyperedge contribution to one cell of the membership matrix:
`count(v1 = a) * count(v2 = b)` copies of the degree for `(a, b)`. -/
theorem meshPairs_if_sum (e : List Nat) (a b : Nat) (g : Nat → Nat → α) :
    ((meshPairs e).map fun p => if p.1 = a ∧ p.2 = b then g p.1 p.2 else 0).sum
      = (e.count a : α) * ((e.count b : α) * g a b) := by
  unfold meshPairs
  exact pairs_if_sum2 e e a b g

/-- Closed form of one cell of the membership matrix `C`. -/
theorem matrixC_apply (w : List α) (A : Nat → Nat → α) (H : List (List Nat))
    (a b : Nat) :
    get_cartesian_product_of_hyperedge_elements w A H a b
      = (H.enum.map fun ie =>
          ((ie.2.count a : α)
            * ((ie.2.count b : α)
              * (w.getD ie.1 0 * A ie.1 a * A ie.1 b)))).sum := by
  unfold get_cartesian_product_of_hyperedge_elements
  rw [foldl_bump_outer H.enum
      (fun i v1 v2 => w.getD i 0 * A i v1 * A i v2) (fun _ _ => 0) a b]
  simp only [zero_add]
  congr 1
  apply List.map_congr_left
  intro ie _
  rw [meshPairs_if_sum ie.2 a b (fun v1 v2 => w.getD ie.1 0 * A ie.1 v1 * A ie.1 v2)]

/-- Score access into the re-expressed affinity rows: the affinity entry in
range, the `np.zeros`-style default `0` outside. -/
theorem scoreAt_reexpress (N : Nat) (F : Nat → Nat → α) (i j : Nat) :
    scoreAt (reexpress (toLists N F)) i j
      = if i < N ∧ j < N then F i j else 0 := by
  by_cases hij : i < N ∧ j < N
  · rw [if_pos hij]
    unfold scoreAt
    rw [reexpress_toLists_getD N F i j hij.1 hij.2]
  · rw [if_neg hij]
    unfold scoreAt
    by_cases hi : i < N
    · have hj : ¬j < N := fun hj => hij ⟨hi, hj⟩
      have hrow : (reexpress (toLists N F)).getD i []
          = ((List.range N).map fun l => F i l).enum := by
        unfold reexpress toLists
        rw [List.getD_eq_getElem _ _ (by simpa using hi)]
        simp
      rw [hrow, List.getD_eq_default _ _ (by simpa using Nat.le_of_not_lt hj)]
    · have hrow : (reexpress (toLists N F)).getD i [] = [] :=
        List.getD_eq_default _ _
          (by simpa [reexpress, toLists] using Nat.le_of_not_lt hi)
      rw [hrow]
      rfl

/-- Every entry of the initial similarity matrix is strictly positive: the
zero-distance guard makes the divisor positive in every case. -/
theorem calculate_similarity_pos (features : List (List ℝ)) (i j : Nat)
    (hi : i < features.length) (hj : j < features.length) :
    0 < scoreAt (calculate_similarity features) i j := by
  unfold scoreAt
  have hrow : (calculate_similarity features).getD i []
      = (features.map fun fj =>
          1 / (if euclideanDist fj (features[i]) = 0 then 1 / 100000
            else euclideanDist fj (features[i]))).enum := by
    unfold calculate_similarity
    rw [List.getD_eq_getElem _ _ (by simpa using hi)]
    simp
  rw [hrow, List.getD_eq_getElem _ _ (by simpa using hj),
    List.getElem_enum]
  simp only [List.getElem_map]
  have hd : 0 ≤ euclideanDist (features[j]) (features[i]) :=
    Real.sqrt_nonneg _
  by_cases h0 : euclideanDist (features[j]) (features[i]) = 0
  · rw [if_pos h0]
    norm_num
  · rw [if_neg h0]
    exact one_div_pos.mpr (lt_of_le_of_ne hd (Ne.symm h0))

/-- Association entries are non-negative whenever every hyperedge has at
most `k` members. -/
theorem create_edge_associations_nonneg (H : List (List Nat)) (k : Nat)
    (hlen : ∀ e ∈ H, e.length ≤ k) (i j : Nat) :
    0 ≤ create_edge_associations H k i j := by
  unfold create_edge_associations
  by_cases hj : j ∈ H.getD i []
  · rw [if_pos hj]
    have hi : i < H.length := by
      by_contra hi
      rw [List.getD_eq_default _ _ (Nat.le_of_not_lt hi)] at hj
      exact absurd hj (List.not_mem_nil j)
    have hmem : H.getD i [] ∈ H := by
      rw [List.getD_eq_getElem _ _ hi]
      exact List.getElem_mem hi
    have hidx : (H.getD i []).indexOf j < (H.getD i []).length :=
      List.indexOf_lt_length.mpr hj
    have hk : 1 ≤ k := by
      have h1 := hlen _ hmem
      omega
    have hb : (1 : ℝ) < (k : ℝ) + 1 := by
      have h1 : (1 : ℝ) ≤ (k : ℝ) := by exact_mod_cast hk
      linarith
    have hp1 : (1 : ℝ) ≤ (((H.getD i []).indexOf j + 1 : ℕ) : ℝ) := by
      exact_mod_cast Nat.succ_le_succ (Nat.zero_le _)
    have hle : Real.logb (k + 1) (((H.getD i []).indexOf j + 1 : ℕ) : ℝ)
        ≤ 1 := by
      rw [Real.logb_le_iff_le_rpow hb (lt_of_lt_of_le one_pos hp1),
        Real.rpow_one]
      have hn : ((H.getD i []).indexOf j + 1 : ℕ) ≤ k :=
        le_trans (Nat.succ_le_of_lt hidx) (hlen _ hmem)
      calc (((H.getD i []).indexOf j + 1 : ℕ) : ℝ)
          ≤ (k : ℝ) := by exact_mod_cast hn
        _ ≤ (k : ℝ) + 1 := by linarith
    linarith
  · rw [if_neg hj]

/-- Edge weights are non-negative whenever the association matrix is. -/
theorem create_edge_weights_nonneg (H : List (List Nat))
    (A : Nat → Nat → α) (hA : ∀ i j, 0 ≤ A i j) (i : Nat) :
    0 ≤ (create_edge_weights H A).getD i 0 := by
  by_cases hi : i < (create_edge_weights H A).length
  · rw [List.getD_eq_getElem _ _ hi]
    unfold create_edge_weights
    simp only [List.getElem_map]
    apply List.sum_nonneg
    intro x hx
    rcases List.mem_map.mp hx with ⟨h, _, rfl⟩
    exact hA _ _
  · rw [List.getD_eq_default _ _ (Nat.le_of_not_lt hi)]

/-- Hyperedge-similarity entries are non-negative whenever the association
matrix is. -/
theorem get_hyperedges_similarities_nonneg (N : Nat) (A : Nat → Nat → α)
    (hA : ∀ i j, 0 ≤ A i j) (i j : Nat) :
    0 ≤ get_hyperedges_similarities N A i j := by
  unfold get_hyperedges_similarities
  apply mul_nonneg
  · apply List.sum_nonneg
    intro x hx
    rcases List.mem_map.mp hx with ⟨l, _, rfl⟩
    exact mul_nonneg (hA _ _) (hA _ _)
  · apply List.sum_nonneg
    intro x hx
    rcases List.mem_map.mp hx with ⟨l, _, rfl⟩
    exact mul_nonneg (hA _ _) (hA _ _)

/-- Membership-matrix entries are non-negative whenever the weights and the
association matrix are. -/
theorem matrixC_nonneg (w : List α) (A : Nat → Nat → α)
    (H : List (List Nat)) (hw : ∀ i, 0 ≤ w.getD i 0)
    (hA : ∀ i j, 0 ≤ A i j) (a b : Nat) :
    0 ≤ get_cartesian_product_of_hyperedge_elements w A H a b := by
  rw [matrixC_apply]
  apply List.sum_nonneg
  intro x hx
  rcases List.mem_map.mp hx with ⟨ie, _, rfl⟩
  have h1 : (0 : α) ≤ (ie.2.count a : α) := by positivity
  have h2 : (0 : α) ≤ (ie.2.count b : α) := by positivity
  have h3 : 0 ≤ w.getD ie.1 0 * A ie.1 a * A ie.1 b :=
    mul_nonneg (mul_nonneg (hw _) (hA _ _)) (hA _ _)
  exact mul_nonneg h1 (mul_nonneg h2 h3)

/-- Hyperedges produced by `get_hypergraph_construction` have length exactly
`k`. -/
theorem get_hypergraph_construction_length (scores : List (SimRow α))
    (k : Nat) : ∀ e ∈ get_hypergraph_construction scores k, e.length = k := by
  intro e he
  rcases List.mem_map.mp he with ⟨row, _, rfl⟩
  simp

/-- Every score produced by one refinement round is non-negative, whatever
the round's input was. -/
theorem lhrr_round_nonneg (k : Nat) (s : List (SimRow ℝ)) (i j : Nat) :
    0 ≤ scoreAt (lhrr_round k s) i j := by
  unfold lhrr_round
  rw [scoreAt_reexpress]
  set H := get_hypergraph_construction (rank_normalization s) k with hH
  have hlen : ∀ e ∈ H, e.length ≤ k := fun e he =>
    le_of_eq (get_hypergraph_construction_length _ k e he)
  have hA : ∀ a b, 0 ≤ create_edge_associations H k a b :=
    create_edge_associations_nonneg H k hlen
  by_cases hij : i < H.length ∧ j < H.length
  · rw [if_pos hij]
    unfold get_hypergrapgh_based_simalarity
    apply mul_nonneg
    · exact matrixC_nonneg _ _ _
        (create_edge_weights_nonneg H _ hA) hA i j
    · exact get_hyperedges_similarities_nonneg _ _ hA i j
  · rw [if_neg hij]

/-! ## Claims -/

/-- C1: after AffinityCombiner in every round, for every item `i` and every
position `j`, the re-expressed SimilarityRow of item `i` holds at position
`j` exactly the pair `(j, F[i][j])` — the `position == neighborId` alignment
invariant is restored before the next round's RankNormalizer reads the
rows. -/
theorem affinity_alignment_restored (N : Nat) (F : Nat → Nat → α)
    (i j : Nat) (hi : i < N) (hj : j < N) :
    ((reexpress (toLists N F)).getD i []).getD j (0, 0) = (j, F i j) :=
  reexpress_toLists_getD N F i j hi hj

theorem affinity_alignment_restored_witness :
    0 < 3 ∧ 2 < 3 ∧
    ((reexpress (toLists 3 (fun _ _ => (5 : ℚ)))).getD 0 []).getD 2
        (0, 0) = (2, (5 : ℚ)) :=
  ⟨by decide, by decide,
    affinity_alignment_restored 3 (fun _ _ => (5 : ℚ)) 0 2
      (by decide) (by decide)⟩

/-- C2: for every similarity input whose rows all have length `N`
(position-aligned), and for all items `i` and `j`, the rank value computed
by RankNormalizer satisfies `rank(i,j) = rank(j,i)` exactly. -/
theorem rank_symmetric (s : List (SimRow α)) (N : Nat)
    (hrows : ∀ r ∈ s, r.length = N) (i j : Nat) :
    rankValue s i j = rankValue s j i := by
  unfold rankValue
  ring

theorem rank_symmetric_witness :
    (∀ r ∈ ([[(0, 4), (1, 2)], [(0, 3), (1, 5)]] : List (SimRow ℚ)),
      r.length = 2)
    ∧ rankValue ([[(0, 4), (1, 2)], [(0, 3), (1, 5)]] : List (SimRow ℚ)) 0 1
        = rankValue ([[(0, 4), (1, 2)], [(0, 3), (1, 5)]] : List (SimRow ℚ)) 1 0 :=
  ⟨by decide, rank_symmetric _ 2 (by decide) 0 1⟩

/-- C3: for every item `i` and position `j` in `0..N-1`, RankNormalizer
computes `rank(i,j) = 2L − (s(i,j) + s(j,i))` with `L = N`, reading the
scores by position in the aligned rows, and outputs for item `i` all pairs
`(j, rank(i,j))` sorted ascending by rank with ties broken by original
position order (stable sort): the output row is a permutation of the
enumerated rank pairs and is pairwise ordered by rank with equal ranks in
increasing position order. -/
theorem rank_normalization_spec (s : List (SimRow α)) (N : Nat)
    (hN : s.length = N) (hrows : ∀ r ∈ s, r.length = N) (i : Nat)
    (hi : i < N) :
    ((rank_normalization s).getD i []).Perm
      ((List.range N).map fun j =>
        (j, 2 * (N : α) - (scoreAt s i j + scoreAt s j i)))
    ∧ List.Pairwise (fun a b : Nat × α => a.2 < b.2 ∨ (a.2 = b.2 ∧ a.1 < b.1))
      ((rank_normalization s).getD i []) := by
  have hi' : i < s.length := hN ▸ hi
  have h0 : 0 < s.length := lt_of_le_of_lt (Nat.zero_le i) hi'
  have hmemi : s.getD i [] ∈ s := by
    rw [List.getD_eq_getElem _ _ hi']
    exact List.getElem_mem hi'
  have hmem0 : s.getD 0 [] ∈ s := by
    rw [List.getD_eq_getElem _ _ h0]
    exact List.getElem_mem h0
  have hrowi : (s.getD i []).length = N := hrows _ hmemi
  have hrow0 : (s.getD 0 []).length = N := hrows _ hmem0
  constructor
  · have hranks : ranks s i
        = (List.range N).map fun j =>
            (j, 2 * (N : α) - (scoreAt s i j + scoreAt s j i)) := by
      unfold ranks rankValue
      rw [hrowi, hrow0]
    exact hranks ▸ rank_normalization_row_perm s i hi'
  · rw [rank_normalization_getD s i hi']
    exact pairwise_lex_insertionSort _ (ranks_pairwise_fst s i)

theorem rank_normalization_spec_witness :
    (([[(0, 4), (1, 2)], [(0, 3), (1, 5)]] : List (SimRow ℚ)).length = 2
      ∧ (∀ r ∈ ([[(0, 4), (1, 2)], [(0, 3), (1, 5)]] : List (SimRow ℚ)),
          r.length = 2)
      ∧ 0 < 2)
    ∧ (((rank_normalization
          ([[(0, 4), (1, 2)], [(0, 3), (1, 5)]] : List (SimRow ℚ))).getD 0
            []).Perm
        ((List.range 2).map fun j =>
          (j, 2 * ((2 : Nat) : ℚ)
            - (scoreAt [[(0, 4), (1, 2)], [(0, 3), (1, 5)]] 0 j
              + scoreAt [[(0, 4), (1, 2)], [(0, 3), (1, 5)]] j 0)))
      ∧ List.Pairwise
          (fun a b : Nat × ℚ => a.2 < b.2 ∨ (a.2 = b.2 ∧ a.1 < b.1))
          ((rank_normalization
            ([[(0, 4), (1, 2)], [(0, 3), (1, 5)]] : List (SimRow ℚ))).getD 0
              [])) :=
  ⟨⟨by decide, by decide, by decide⟩,
    rank_normalization_spec _ 2 (by decide) (by decide) 0 (by decide)⟩

/-- C7: for every item `i`, under the precondition `k ≤ N`, hyperedge `i`
has length exactly `k` and consists of the neighbor ids of the first `k`
entries of item `i`'s RankedList, in the RankedList's non-decreasing-rank
order. -/
theorem hyperedge_spec (s : List (SimRow α)) (N k i : Nat)
    (hN : s.length = N) (hrows : ∀ r ∈ s, r.length = N) (hk : k ≤ N)
    (hi : i < N) :
    ((get_hypergraph_construction (rank_normalization s) k).getD i []).length
        = k
    ∧ (get_hypergraph_construction (rank_normalization s) k).getD i []
        = (((rank_normalization s).getD i []).take k).map Prod.fst
    ∧ List.Pairwise (fun a b : Nat => rankValue s i a ≤ rankValue s i b)
        ((get_hypergraph_construction (rank_normalization s) k).getD i []) := by
  have hi' : i < s.length := hN ▸ hi
  have hmemi : s.getD i [] ∈ s := by
    rw [List.getD_eq_getElem _ _ hi']
    exact List.getElem_mem hi'
  have hrowi : (s.getD i []).length = N := hrows _ hmemi
  have hrowlen : ((rank_normalization s).getD i []).length = N := by
    rw [(rank_normalization_row_perm s i hi').length_eq, ranks_length, hrowi]
  have hH : (get_hypergraph_construction (rank_normalization s) k).getD i []
      = (List.range k).map fun j =>
          (((rank_normalization s).getD i []).getD j (0, 0)).1 := by
    unfold get_hypergraph_construction
    rw [List.getD_eq_getElem _ _
      (by simpa [length_rank_normalization] using hi')]
    rw [List.getElem_map]
    congr 1
    rw [List.getD_eq_getElem _ _ (by simpa [length_rank_normalization] using hi')]
  have hshape : ∀ p ∈ (rank_normalization s).getD i [],
      p.2 = rankValue s i p.1 := fun p hp =>
    mem_ranks_shape s i ((rank_normalization_row_perm s i hi').mem_iff.mp hp)
  have heq : (get_hypergraph_construction (rank_normalization s) k).getD i []
      = (((rank_normalization s).getD i []).take k).map Prod.fst := by
    rw [hH]
    apply List.ext_getElem
    · simp only [List.length_map, List.length_range, List.length_take,
        hrowlen]
      omega
    · intro n h1 h2
      simp only [List.getElem_map, List.getElem_range, List.getElem_take]
      rw [List.getD_eq_getElem _ _ (by simp at h1; omega)]
  refine ⟨by rw [hH]; simp, heq, ?_⟩
  rw [heq, List.pairwise_map]
  have hsorted : List.Pairwise rankLe
      ((((rank_normalization s).getD i []).take k)) :=
    (rank_normalization_row_sorted s i hi').sublist (List.take_sublist _ _)
  apply hsorted.imp_of_mem
  intro a b ha hb hab
  have ha' := hshape a (List.mem_of_mem_take ha)
  have hb' := hshape b (List.mem_of_mem_take hb)
  have hab' : a.2 ≤ b.2 := hab
  rw [ha', hb'] at hab'
  exact hab'

theorem hyperedge_spec_witness :
    (([[(0, 4), (1, 2)], [(0, 3), (1, 5)]] : List (SimRow ℚ)).length = 2
      ∧ (∀ r ∈ ([[(0, 4), (1, 2)], [(0, 3), (1, 5)]] : List (SimRow ℚ)),
          r.length = 2)
      ∧ 1 ≤ 2 ∧ 0 < 2)
    ∧ (((get_hypergraph_construction
          (rank_normalization
            ([[(0, 4), (1, 2)], [(0, 3), (1, 5)]] : List (SimRow ℚ))) 1).getD
            0 []).length = 1
      ∧ (get_hypergraph_construction
          (rank_normalization
            ([[(0, 4), (1, 2)], [(0, 3), (1, 5)]] : List (SimRow ℚ))) 1).getD
            0 []
          = (((rank_normalization
              ([[(0, 4), (1, 2)], [(0, 3), (1, 5)]] : List (SimRow ℚ))).getD
                0 []).take 1).map Prod.fst
      ∧ List.Pairwise
          (fun a b : Nat =>
            rankValue ([[(0, 4), (1, 2)], [(0, 3), (1, 5)]] : List (SimRow ℚ))
                0 a
              ≤ rankValue
                  ([[(0, 4), (1, 2)], [(0, 3), (1, 5)]] : List (SimRow ℚ)) 0 b)
          ((get_hypergraph_construction
            (rank_normalization
              ([[(0, 4), (1, 2)], [(0, 3), (1, 5)]] : List (SimRow ℚ))) 1).getD
              0 [])) :=
  ⟨⟨by decide, by decide, by decide, by decide⟩,
    hyperedge_spec _ 2 1 0 (by decide) (by decide) (by decide) (by decide)⟩

/-- C4: for every hyperedge `i` and every vertex `j`:
`A[i][j] = 1 − log_{k+1}(p)` when `j` occupies 1-indexed position `p` within
hyperedge `i`, and `A[i][j] = 0` when `j` is not a member; consequently
every member entry satisfies `0 < A[i][j] ≤ 1` and every non-member entry is
exactly `0`. -/
theorem edge_association_spec (H : List (List Nat)) (k : Nat) (hk : 1 ≤ k)
    (hlen : ∀ e ∈ H, e.length = k) (i j : Nat) :
    (j ∈ H.getD i [] →
      create_edge_associations H k i j
          = 1 - Real.logb (k + 1) (((H.getD i []).indexOf j + 1 : ℕ) : ℝ)
        ∧ 0 < create_edge_associations H k i j
        ∧ create_edge_associations H k i j ≤ 1)
    ∧ (j ∉ H.getD i [] → create_edge_associations H k i j = 0) := by
  constructor
  · intro hj
    have hval : create_edge_associations H k i j
        = 1 - Real.logb (k + 1) (((H.getD i []).indexOf j + 1 : ℕ) : ℝ) := by
      unfold create_edge_associations
      rw [if_pos hj]
    have hb : (1 : ℝ) < (k : ℝ) + 1 := by
      have h1 : (1 : ℝ) ≤ (k : ℝ) := by exact_mod_cast hk
      linarith
    have hi : i < H.length := by
      by_contra hi
      rw [List.getD_eq_default _ _ (Nat.le_of_not_lt hi)] at hj
      exact absurd hj (List.not_mem_nil j)
    have hmem : H.getD i [] ∈ H := by
      rw [List.getD_eq_getElem _ _ hi]
      exact List.getElem_mem hi
    have hidx : (H.getD i []).indexOf j < k := by
      have h1 : (H.getD i []).indexOf j < (H.getD i []).length :=
        List.indexOf_lt_length.mpr hj
      rw [hlen _ hmem] at h1
      exact h1
    have hp1 : (1 : ℝ) ≤ (((H.getD i []).indexOf j + 1 : ℕ) : ℝ) := by
      exact_mod_cast Nat.succ_le_succ (Nat.zero_le _)
    have hlogb_lt : Real.logb (k + 1) (((H.getD i []).indexOf j + 1 : ℕ) : ℝ)
        < 1 := by
      rw [Real.logb_lt_iff_lt_rpow hb (lt_of_lt_of_le one_pos hp1),
        Real.rpow_one]
      have : ((H.getD i []).indexOf j + 1 : ℕ) ≤ k := hidx
      calc (((H.getD i []).indexOf j + 1 : ℕ) : ℝ)
          ≤ (k : ℝ) := by exact_mod_cast this
        _ < (k : ℝ) + 1 := by linarith
    have hlogb_nonneg :
        0 ≤ Real.logb (k + 1) (((H.getD i []).indexOf j + 1 : ℕ) : ℝ) :=
      Real.logb_nonneg hb hp1
    refine ⟨hval, ?_, ?_⟩
    · rw [hval]
      linarith
    · rw [hval]
      linarith
  · intro hj
    unfold create_edge_associations
    rw [if_neg hj]

theorem edge_association_spec_witness :
    (1 ≤ 1 ∧ ∀ e ∈ ([[0]] : List (List Nat)), e.length = 1)
    ∧ ((0 ∈ ([[0]] : List (List Nat)).getD 0 [] →
        create_edge_associations [[0]] 1 0 0
            = 1 - Real.logb (((1 : ℕ) : ℝ) + 1)
                (((([[0]] : List (List Nat)).getD 0 []).indexOf 0 + 1 : ℕ) : ℝ)
          ∧ 0 < create_edge_associations [[0]] 1 0 0
          ∧ create_edge_associations [[0]] 1 0 0 ≤ 1)
      ∧ (0 ∉ ([[0]] : List (List Nat)).getD 0 [] →
          create_edge_associations [[0]] 1 0 0 = 0)) :=
  ⟨⟨by decide, by decide⟩,
    edge_association_spec [[0]] 1 (by decide) (by decide) 0 0⟩

/-- C5: in every round, the membership matrix `C` produced by
MembershipAggregator, the hyperedge-similarity matrix
`S = (A·Aᵗ) ∘ (Aᵗ·A)`, and the fused affinity matrix `F = C ∘ S` are all
symmetric (`M[i][j] = M[j][i]` for all `i`, `j`, for every weight list,
association matrix and hyperedge list, hence in particular for the ones
built in each round). -/
theorem derived_matrices_symmetric (N : Nat) (w : List α)
    (A : Nat → Nat → α) (H : List (List Nat)) (i j : Nat) :
    get_cartesian_product_of_hyperedge_elements w A H i j
        = get_cartesian_product_of_hyperedge_elements w A H j i
    ∧ get_hyperedges_similarities N A i j
        = get_hyperedges_similarities N A j i
    ∧ get_hypergrapgh_based_simalarity
          (get_cartesian_product_of_hyperedge_elements w A H)
          (get_hyperedges_similarities N A) i j
        = get_hypergrapgh_based_simalarity
            (get_cartesian_product_of_hyperedge_elements w A H)
            (get_hyperedges_similarities N A) j i := by
  have hC : get_cartesian_product_of_hyperedge_elements w A H i j
      = get_cartesian_product_of_hyperedge_elements w A H j i := by
    rw [matrixC_apply, matrixC_apply]
    congr 1
    apply List.map_congr_left
    intro ie _
    ring
  have hS : get_hyperedges_similarities N A i j
      = get_hyperedges_similarities N A j i := by
    unfold get_hyperedges_similarities
    have h1 : ((List.range N).map fun l => A i l * A j l)
        = ((List.range N).map fun l => A j l * A i l) :=
      List.map_congr_left fun l _ => mul_comm _ _
    have h2 : ((List.range N).map fun l => A l i * A l j)
        = ((List.range N).map fun l => A l j * A l i) :=
      List.map_congr_left fun l _ => mul_comm _ _
    rw [h1, h2]
  exact ⟨hC, hS, by unfold get_hypergrapgh_based_simalarity; rw [hC, hS]⟩

/-- C6: at every round the similarity values fed into RankNormalizer are
(real numbers, hence finite and non-NaN, and) non-negative; in particular a
zero Euclidean distance between two items never causes a division error in
PairwiseSimilarityComputer — the initial scores are defined and strictly
positive even for zero distance, and every later round's scores are
non-negative. -/
theorem similarity_values_safe (features : List (List ℝ)) (k n i j : Nat)
    (hi : i < features.length) (hj : j < features.length) :
    0 < scoreAt (calculate_similarity features) i j
    ∧ 0 ≤ scoreAt (lhrr_run k n (calculate_similarity features)) i j := by
  refine ⟨calculate_similarity_pos features i j hi hj, ?_⟩
  cases n with
  | zero => exact le_of_lt (calculate_similarity_pos features i j hi hj)
  | succ m =>
    have hstep : lhrr_run k (m + 1) (calculate_similarity features)
        = lhrr_round k (lhrr_run k m (calculate_similarity features)) :=
      Function.iterate_succ_apply' (lhrr_round k) m _
    rw [hstep]
    exact lhrr_round_nonneg k _ i j

theorem similarity_values_safe_witness :
    0 < ([[(0 : ℝ)], [0]] : List (List ℝ)).length
    ∧ 1 < ([[(0 : ℝ)], [0]] : List (List ℝ)).length
    ∧ (0 < scoreAt (calculate_similarity [[(0 : ℝ)], [0]]) 0 1
      ∧ 0 ≤ scoreAt (lhrr_run 5 2 (calculate_similarity [[(0 : ℝ)], [0]])) 0 1) :=
  ⟨by simp, by simp,
    similarity_values_safe [[(0 : ℝ)], [0]] 5 2 0 1 (by simp) (by simp)⟩

/-- C8: with iteration count `0`, the refinement loop is the identity on the
similarity structure, so the retrieval output (the filtered,
descending-sorted candidate shortlist for the query) equals the ranking
induced by the initial, unrefined similarity matrix. -/
theorem zero_rounds_identity (k : Nat) (s : List (SimRow ℝ)) (q : Nat) :
    lhrr_run k 0 s = s ∧ top_retrieved (lhrr_run k 0 s) q = top_retrieved s q :=
  ⟨rfl, rfl⟩

/-- C9: `calculate_accuracy` returns `(matching / total) * 100`; for a top-5
result list in which exactly 3 items match the query label it returns
exactly `60`. -/
theorem accuracy_three_of_five {L : Type} [DecidableEq L]
    (retrieved : SimRow α) (labels : Nat → L) (queryLabel : L)
    (hlen : retrieved.length = 5)
    (hcount : retrieved.countP (fun p => decide (labels p.1 = queryLabel)) = 3) :
    calculate_accuracy retrieved labels queryLabel = 60 := by
  unfold calculate_accuracy
  rw [hlen, hcount]
  norm_num

theorem accuracy_three_of_five_witness :
    ([(0, (1 : ℚ)), (1, 1), (2, 1), (3, 1), (4, 1)].length = 5)
    ∧ ([(0, (1 : ℚ)), (1, 1), (2, 1), (3, 1), (4, 1)].countP
        (fun p => decide ((fun n => n % 2) p.1 = 0)) = 3)
    ∧ calculate_accuracy [(0, (1 : ℚ)), (1, 1), (2, 1), (3, 1), (4, 1)]
        (fun n => n % 2) 0 = 60 :=
  ⟨by decide, by decide,
    accuracy_three_of_five _ _ _ (by decide) (by decide)⟩

/-- C10: RetrievalRanker never excludes the query item itself: whenever the
query row's own-position entry has a nonzero score, the pair
`(queryId, score)` is kept by the zero-score filter, participates in the
descending sort, occupies a top-K slot whenever its score dominates the
other kept scores, and its label always counts as a match in the accuracy
computation (making the accuracy strictly positive). -/
theorem query_never_excluded (s : List (SimRow α)) (q : Nat) (v : α)
    {L : Type} [DecidableEq L] (labels : Nat → L)
    (hq : (s.getD q []).getD q (0, 0) = (q, v))
    (hqlen : q < (s.getD q []).length) (hv : v ≠ 0) :
    (q, v) ∈ retrieve_filter s q
    ∧ (q, v) ∈ retrieved_images s q
    ∧ ((∀ p ∈ retrieve_filter s q, p ≠ (q, v) → p.2 < v) →
        (q, v) ∈ top_retrieved s q)
    ∧ (∀ retrieved : SimRow α, (q, v) ∈ retrieved →
        1 ≤ retrieved.countP (fun p => decide (labels p.1 = labels q))
        ∧ 0 < calculate_accuracy retrieved labels (labels q)) := by
  have hmem : (q, v) ∈ s.getD q [] := by
    rw [← hq, List.getD_eq_getElem _ _ hqlen]
    exact List.getElem_mem hqlen
  have hfil : (q, v) ∈ retrieve_filter s q := by
    unfold retrieve_filter
    exact List.mem_filter.mpr ⟨hmem, by simpa using hv⟩
  have hsortmem : (q, v) ∈ retrieved_images s q :=
    (List.perm_insertionSort scoreGe _).mem_iff.mpr hfil
  refine ⟨hfil, hsortmem, ?_, ?_⟩
  · intro hdom
    have hsorted : List.Pairwise scoreGe (retrieved_images s q) :=
      List.sorted_insertionSort scoreGe (retrieve_filter s q)
    unfold top_retrieved
    rcases hl : retrieved_images s q with _ | ⟨hd, t⟩
    · rw [hl] at hsortmem
      exact absurd hsortmem (List.not_mem_nil _)
    · rw [hl] at hsortmem hsorted
      by_cases hhd : hd = (q, v)
      · subst hhd
        rw [List.take_succ_cons]
        exact List.mem_cons_self _ _
      · have hhdmem : hd ∈ retrieve_filter s q := by
          have hmemri : hd ∈ retrieved_images s q := by
            rw [hl]
            exact List.mem_cons_self _ _
          exact (List.perm_insertionSort scoreGe
            (retrieve_filter s q)).mem_iff.mp hmemri
        have hlt : hd.2 < v := hdom hd hhdmem hhd
        have htail : (q, v) ∈ t := by
          rcases List.mem_cons.mp hsortmem with h | h
          · exact absurd h.symm hhd
          · exact h
        have hge : scoreGe hd (q, v) :=
          (List.pairwise_cons.mp hsorted).1 _ htail
        have hge' : v ≤ hd.2 := hge
        exact absurd hlt (not_lt_of_le hge')
  · intro retrieved hr
    have hcount : 0 < retrieved.countP
        (fun p => decide (labels p.1 = labels q)) :=
      List.countP_pos_iff.mpr ⟨(q, v), hr, by simp⟩
    refine ⟨hcount, ?_⟩
    unfold calculate_accuracy
    have hlenpos : 0 < retrieved.length :=
      List.length_pos.mpr (List.ne_nil_of_mem hr)
    have h1 : (0 : α) < (retrieved.countP
        (fun p => decide (labels p.1 = labels q)) : α) := by
      exact_mod_cast hcount
    have h2 : (0 : α) < (retrieved.length : α) := by
      exact_mod_cast hlenpos
    positivity

theorem query_never_excluded_witness :
    ((([[(0, 2), (1, 1)]] : List (SimRow ℚ)).getD 0 []).getD 0 (0, 0)
        = (0, (2 : ℚ))
      ∧ 0 < (([[(0, 2), (1, 1)]] : List (SimRow ℚ)).getD 0 []).length
      ∧ (2 : ℚ) ≠ 0)
    ∧ ((0, (2 : ℚ)) ∈ retrieve_filter ([[(0, 2), (1, 1)]] : List (SimRow ℚ)) 0
      ∧ (0, (2 : ℚ)) ∈ retrieved_images ([[(0, 2), (1, 1)]] : List (SimRow ℚ)) 0
      ∧ ((∀ p ∈ retrieve_filter ([[(0, 2), (1, 1)]] : List (SimRow ℚ)) 0,
            p ≠ (0, (2 : ℚ)) → p.2 < 2) →
          (0, (2 : ℚ)) ∈ top_retrieved ([[(0, 2), (1, 1)]] : List (SimRow ℚ)) 0)
      ∧ (∀ retrieved : SimRow ℚ, (0, (2 : ℚ)) ∈ retrieved →
          1 ≤ retrieved.countP
              (fun p => decide ((fun _ => (0 : Nat)) p.1 = (fun _ => (0 : Nat)) 0))
          ∧ 0 < calculate_accuracy retrieved (fun _ => (0 : Nat))
              ((fun _ => (0 : Nat)) 0))) :=
  ⟨⟨by decide, by decide, by decide⟩,
    query_never_excluded [[(0, 2), (1, 1)]] 0 2 (fun _ => (0 : Nat))
      (by decide) (by decide) (by decide)⟩

end ImageAnalysis
